import Mathlib

/-!
Verification development for the `pytoolbox_jdo` file-cache core
(`src/pytoolbox_jdo/file_cache/*`): a shallow embedding in Lean of the
resolution engine (`FileCache.resolve`, `FileCache.register`,
`FileCache.clear_cache`), the shared matcher base
(`BaseFileMatcher.get_or_update_cache`, `split_container`,
`is_cache_eligible`) and the concrete tar-family and git handlers,
together with theorems settling the specification's claims about them.

Python machine integers/floats appear only as whole-second modification
times, which the source truncates with `int(...)`; they are embedded as
`Int`.  Filesystem state is passed explicitly, and fallible code returns
`Except String`.
-/

/-- An option bag (`**kvargs`): an open mapping of string keys to values,
embedded as an association list with unique keys (Python `dict`). -/
abbrev Opts := List (String × String)

/-- First value bound to key `k`, like `dict.get(k)`. -/
def lookupOpt (k : String) : Opts → Option String
  | [] => none
  | (k2, v) :: rest => if k2 = k then some v else lookupOpt k rest

/-- `dict.pop(k, None)`: the value bound to `k` (if any) together with the
bag with `k` removed. -/
def popOpt (k : String) (o : Opts) : Option String × Opts :=
  (lookupOpt k o, o.filter (fun p => p.1 ≠ k))

/-- Whether key `k` is present in the bag. -/
def containsKey (k : String) (o : Opts) : Bool :=
  (lookupOpt k o).isSome

/-- A resolved reference: Python passes either a `str` or a `Path`
(`fname: str | PathLike`); `FileCache.resolve` coerces a final `str`
to `Path` when it exists locally, so the distinction is observable. -/
inductive RVal where
  | rstr (s : String)
  | rpath (s : String)
deriving DecidableEq, Repr

/-- A handler boundary (`FileTypeHandler.resolve`): reference and option
bag in, optional produced reference and (possibly mutated) option bag
out.  The bag type is abstract: the engine only threads it. -/
abbrev Handler (σ : Type) := RVal → σ → Option RVal × σ


/-- The dispatch loop of `FileCache.resolve` (file_cache.py lines 93-101):
`while i < len(self.repo): cached_file, kvargs = self.repo[i].resolve(file, **kvargs);
if cached_file: i = 0; file = cached_file else: i += 1`.
The Python loop need not terminate, so the embedding is fueled; `none`
means the fuel ran out. -/
def resolveLoop {σ : Type} (handlers : List (Handler σ)) :
    Nat → Nat → RVal → σ → Option (RVal × σ)
  | 0, _, _, _ => none
  | fuel + 1, i, file, opts =>
    match handlers.get? i with
    | none => some (file, opts)
    | some h =>
      match (h file opts).1 with
      | some produced => resolveLoop handlers fuel 0 produced (h file opts).2
      | none => resolveLoop handlers fuel (i + 1) file (h file opts).2

/-- Final coercion of `FileCache.resolve` (file_cache.py lines 103-104):
`if isinstance(file, str) and os.path.exists(file): file = Path(file)`.
`exF` embeds `os.path.exists`. -/
def coerceRef (exF : String → Bool) : RVal → RVal
  | .rstr s => if exF s then .rpath s else .rstr s
  | .rpath s => .rpath s

/-- `FileCache.resolve` (file_cache.py lines 82-106): run the dispatch
loop from index 0 on the caller's reference, then coerce the result. -/
def fileCacheResolve {σ : Type} (exF : String → Bool)
    (handlers : List (Handler σ)) (fuel : Nat) (fname : RVal) (opts : σ) :
    Option RVal :=
  (resolveLoop handlers fuel 0 fname opts).map (fun p => coerceRef exF p.1)

/-- The specification's state machine, written from the spec's words:
"State machine with exactly two control states: dispatching (trying
handler at index i against current reference) and restarting (a handler
produced a new reference; index resets to 0)." -/
inductive MState (σ : Type) where
  | dispatching (i : Nat) (cur : RVal) (opts : σ)
  | restarting (produced : RVal) (opts : σ)

/-- One transition of the specified machine: `inr` is the terminal
condition ("index reaches the end of the handler list with no match —
the loop exits and returns the last known reference"). -/
def mstep {σ : Type} (handlers : List (Handler σ)) :
    MState σ → MState σ ⊕ (RVal × σ)
  | .restarting produced opts => .inl (.dispatching 0 produced opts)
  | .dispatching i cur opts =>
    match handlers.get? i with
    | none => .inr (cur, opts)
    | some h =>
      match (h cur opts).1 with
      | some produced => .inl (.restarting produced (h cur opts).2)
      | none => .inl (.dispatching (i + 1) cur (h cur opts).2)

/-- Run the specified machine for at most `fuel` transitions. -/
def mrun {σ : Type} (handlers : List (Handler σ)) :
    Nat → MState σ → Option (RVal × σ)
  | fuel, st =>
    match mstep handlers st with
    | .inr r => some r
    | .inl st2 =>
      match fuel with
      | 0 => none
      | fuel2 + 1 => mrun handlers fuel2 st2

/-- Resolution as the spec describes it: start the two-state machine
dispatching at index 0 with the caller's reference, and coerce the
returned reference to a path type when it exists locally. -/
def specResolve {σ : Type} (exF : String → Bool)
    (handlers : List (Handler σ)) (fuel : Nat) (fname : RVal) (opts : σ) :
    Option RVal :=
  (mrun handlers fuel (.dispatching 0 fname opts)).map (fun p => coerceRef exF p.1)

theorem resolveLoop_end {σ : Type} (handlers : List (Handler σ))
    (fuel i : Nat) (file : RVal) (opts : σ) (hg : handlers.get? i = none) :
    resolveLoop handlers (fuel + 1) i file opts = some (file, opts) := by
  rw [resolveLoop, hg]

theorem resolveLoop_hit {σ : Type} (handlers : List (Handler σ))
    (fuel i : Nat) (file : RVal) (opts : σ) (hd : Handler σ) (p : RVal)
    (hg : handlers.get? i = some hd) (hr : (hd file opts).1 = some p) :
    resolveLoop handlers (fuel + 1) i file opts =
      resolveLoop handlers fuel 0 p (hd file opts).2 := by
  rw [resolveLoop, hg]
  dsimp only
  rw [hr]

theorem resolveLoop_miss {σ : Type} (handlers : List (Handler σ))
    (fuel i : Nat) (file : RVal) (opts : σ) (hd : Handler σ)
    (hg : handlers.get? i = some hd) (hr : (hd file opts).1 = none) :
    resolveLoop handlers (fuel + 1) i file opts =
      resolveLoop handlers fuel (i + 1) file (hd file opts).2 := by
  rw [resolveLoop, hg]
  dsimp only
  rw [hr]

theorem mrun_end {σ : Type} (handlers : List (Handler σ))
    (fuel i : Nat) (cur : RVal) (opts : σ) (hg : handlers.get? i = none) :
    mrun handlers fuel (.dispatching i cur opts) = some (cur, opts) := by
  rw [mrun, mstep, hg]

theorem mrun_step {σ : Type} (handlers : List (Handler σ))
    (fuel : Nat) (st st2 : MState σ) (hs : mstep handlers st = .inl st2) :
    mrun handlers (fuel + 1) st = mrun handlers fuel st2 := by
  rw [mrun, hs]

theorem mrun_zero_stuck {σ : Type} (handlers : List (Handler σ))
    (st st2 : MState σ) (hs : mstep handlers st = .inl st2) :
    mrun handlers 0 st = none := by
  rw [mrun, hs]

theorem mstep_hit {σ : Type} (handlers : List (Handler σ))
    (i : Nat) (cur : RVal) (opts : σ) (hd : Handler σ) (p : RVal)
    (hg : handlers.get? i = some hd) (hr : (hd cur opts).1 = some p) :
    mstep handlers (.dispatching i cur opts) =
      .inl (.restarting p (hd cur opts).2) := by
  rw [mstep, hg]
  dsimp only
  rw [hr]

theorem mstep_miss {σ : Type} (handlers : List (Handler σ))
    (i : Nat) (cur : RVal) (opts : σ) (hd : Handler σ)
    (hg : handlers.get? i = some hd) (hr : (hd cur opts).1 = none) :
    mstep handlers (.dispatching i cur opts) =
      .inl (.dispatching (i + 1) cur (hd cur opts).2) := by
  rw [mstep, hg]
  dsimp only
  rw [hr]

theorem mstep_restart {σ : Type} (handlers : List (Handler σ))
    (p : RVal) (opts : σ) :
    mstep handlers (.restarting p opts) = .inl (.dispatching 0 p opts) := rfl

theorem mrun_mono {σ : Type} (handlers : List (Handler σ)) :
    ∀ (n : Nat) (st : MState σ) (r : RVal × σ),
      mrun handlers n st = some r → mrun handlers (n + 1) st = some r := by
  intro n
  induction n with
  | zero =>
    intro st r h
    cases hs : mstep handlers st with
    | inr v =>
      rw [mrun, hs] at h
      rw [mrun, hs]
      exact h
    | inl st2 => rw [mrun_zero_stuck handlers st st2 hs] at h; exact absurd h (by simp)
  | succ m ih =>
    intro st r h
    cases hs : mstep handlers st with
    | inr v =>
      rw [mrun, hs] at h
      rw [mrun, hs]
      exact h
    | inl st2 =>
      rw [mrun_step handlers m st st2 hs] at h
      rw [mrun_step handlers (m + 1) st st2 hs]
      exact ih st2 r h

theorem mrun_le {σ : Type} (handlers : List (Handler σ))
    (m n : Nat) (st : MState σ) (r : RVal × σ) (hmn : m ≤ n)
    (h : mrun handlers m st = some r) : mrun handlers n st = some r := by
  induction n with
  | zero =>
    have hm0 : m = 0 := Nat.le_zero.mp hmn
    rw [hm0] at h; exact h
  | succ k ih =>
    rcases Nat.lt_or_ge m (k + 1) with hlt | hge
    · exact mrun_mono handlers k st r (ih (Nat.lt_succ_iff.mp hlt))
    · have hmk : m = k + 1 := Nat.le_antisymm hmn hge
      rw [hmk] at h; exact h

theorem resolveLoop_mono {σ : Type} (handlers : List (Handler σ)) :
    ∀ (fuel i : Nat) (file : RVal) (opts : σ) (r : RVal × σ),
      resolveLoop handlers fuel i file opts = some r →
      resolveLoop handlers (fuel + 1) i file opts = some r := by
  intro fuel
  induction fuel with
  | zero =>
    intro i file opts r h
    exact absurd h (by rw [resolveLoop]; simp)
  | succ m ih =>
    intro i file opts r h
    cases hg : handlers.get? i with
    | none =>
      rw [resolveLoop_end handlers m i file opts hg] at h
      rw [resolveLoop_end handlers (m + 1) i file opts hg]
      exact h
    | some hd =>
      cases hr : (hd file opts).1 with
      | some p =>
        rw [resolveLoop_hit handlers m i file opts hd p hg hr] at h
        rw [resolveLoop_hit handlers (m + 1) i file opts hd p hg hr]
        exact ih 0 p (hd file opts).2 r h
      | none =>
        rw [resolveLoop_miss handlers m i file opts hd hg hr] at h
        rw [resolveLoop_miss handlers (m + 1) i file opts hd hg hr]
        exact ih (i + 1) file (hd file opts).2 r h

theorem resolveLoop_le {σ : Type} (handlers : List (Handler σ))
    (m n i : Nat) (file : RVal) (opts : σ) (r : RVal × σ) (hmn : m ≤ n)
    (h : resolveLoop handlers m i file opts = some r) :
    resolveLoop handlers n i file opts = some r := by
  induction n with
  | zero =>
    have hm0 : m = 0 := Nat.le_zero.mp hmn
    rw [hm0] at h; exact h
  | succ k ih =>
    rcases Nat.lt_or_ge m (k + 1) with hlt | hge
    · exact resolveLoop_mono handlers k i file opts r (ih (Nat.lt_succ_iff.mp hlt))
    · have hmk : m = k + 1 := Nat.le_antisymm hmn hge
      rw [hmk] at h; exact h

/-- Each fueled run of the code's loop is matched by a (2×fuel)-step run
of the specified machine from the corresponding dispatching state. -/
theorem resolveLoop_to_mrun {σ : Type} (handlers : List (Handler σ)) :
    ∀ (fuel i : Nat) (file : RVal) (opts : σ) (r : RVal × σ),
      resolveLoop handlers fuel i file opts = some r →
      mrun handlers (2 * fuel) (.dispatching i file opts) = some r := by
  intro fuel
  induction fuel with
  | zero =>
    intro i file opts r h
    exact absurd h (by rw [resolveLoop]; simp)
  | succ m ih =>
    intro i file opts r h
    cases hg : handlers.get? i with
    | none =>
      rw [resolveLoop_end handlers m i file opts hg] at h
      rw [mrun_end handlers (2 * (m + 1)) i file opts hg]
      exact h
    | some hd =>
      cases hr : (hd file opts).1 with
      | some p =>
        rw [resolveLoop_hit handlers m i file opts hd p hg hr] at h
        have step2 := ih 0 p (hd file opts).2 r h
        have h2 : 2 * (m + 1) = (2 * m + 1) + 1 := by ring
        rw [h2]
        rw [mrun_step handlers (2 * m + 1) _ _ (mstep_hit handlers i file opts hd p hg hr)]
        rw [mrun_step handlers (2 * m) _ _ (mstep_restart handlers p (hd file opts).2)]
        exact step2
      | none =>
        rw [resolveLoop_miss handlers m i file opts hd hg hr] at h
        have step1 := ih (i + 1) file (hd file opts).2 r h
        have h2 : 2 * (m + 1) = (2 * m + 1) + 1 := by ring
        rw [h2]
        rw [mrun_step handlers (2 * m + 1) _ _ (mstep_miss handlers i file opts hd hg hr)]
        exact mrun_mono handlers (2 * m) _ r step1

/-- Each fueled run of the specified machine from a dispatching state is
matched by an (n+1)-fuel run of the code's loop. -/
theorem mrun_to_resolveLoop {σ : Type} (handlers : List (Handler σ)) :
    ∀ (n : Nat), ∀ (i : Nat) (file : RVal) (opts : σ) (r : RVal × σ),
      mrun handlers n (.dispatching i file opts) = some r →
      resolveLoop handlers (n + 1) i file opts = some r := by
  intro n
  induction n using Nat.strong_induction_on with
  | _ n ih =>
    intro i file opts r h
    cases hg : handlers.get? i with
    | none =>
      rw [mrun_end handlers n i file opts hg] at h
      rw [resolveLoop_end handlers n i file opts hg]
      exact h
    | some hd =>
      cases hr : (hd file opts).1 with
      | some p =>
        match n with
        | 0 =>
          rw [mrun_zero_stuck handlers _ _ (mstep_hit handlers i file opts hd p hg hr)] at h
          exact absurd h (by simp)
        | n2 + 1 =>
          rw [mrun_step handlers n2 _ _ (mstep_hit handlers i file opts hd p hg hr)] at h
          match n2 with
          | 0 =>
            rw [mrun_zero_stuck handlers _ _ (mstep_restart handlers p (hd file opts).2)] at h
            exact absurd h (by simp)
          | n3 + 1 =>
            rw [mrun_step handlers n3 _ _ (mstep_restart handlers p (hd file opts).2)] at h
            have hloop : resolveLoop handlers (n3 + 1) 0 p (hd file opts).2 = some r :=
              ih n3 (by omega) 0 p (hd file opts).2 r h
            rw [resolveLoop_hit handlers (n3 + 2) i file opts hd p hg hr]
            exact resolveLoop_le handlers (n3 + 1) (n3 + 2) 0 p (hd file opts).2 r (by omega) hloop
      | none =>
        match n with
        | 0 =>
          rw [mrun_zero_stuck handlers _ _ (mstep_miss handlers i file opts hd hg hr)] at h
          exact absurd h (by simp)
        | n2 + 1 =>
          rw [mrun_step handlers n2 _ _ (mstep_miss handlers i file opts hd hg hr)] at h
          have hloop : resolveLoop handlers (n2 + 1) (i + 1) file (hd file opts).2 = some r :=
            ih n2 (by omega) (i + 1) file (hd file opts).2 r h
          rw [resolveLoop_miss handlers (n2 + 1) i file opts hd hg hr]
          exact hloop

/-- C1.  For every handler list and input reference, the code's
`FileCache.resolve` behaves exactly as the specified two-state machine:
a run of the code terminating with result `res` exists iff a run of the
machine (dispatching from index 0 with the caller's reference, moving on
a non-nil handler result to the restarting state which resets the index
to 0 with the produced reference, incrementing the index on nil with the
reference unchanged, and on reaching the end of the handler list
returning the current reference coerced to a path type exactly when it
exists on the local filesystem, else as-is) terminating with `res`
exists. -/
theorem fileCache_resolve_eq_spec_machine {σ : Type} (exF : String → Bool)
    (handlers : List (Handler σ)) (fname : RVal) (opts : σ) (res : RVal) :
    (∃ fuel, fileCacheResolve exF handlers fuel fname opts = some res) ↔
    (∃ n, specResolve exF handlers n fname opts = some res) := by
  constructor
  · rintro ⟨fuel, h⟩
    unfold fileCacheResolve at h
    cases hl : resolveLoop handlers fuel 0 fname opts with
    | none => rw [hl] at h; exact absurd h (by simp)
    | some p =>
      rw [hl] at h
      simp at h
      refine ⟨2 * fuel, ?_⟩
      unfold specResolve
      rw [resolveLoop_to_mrun handlers fuel 0 fname opts p hl]
      simp [h]
  · rintro ⟨n, h⟩
    unfold specResolve at h
    cases hm : mrun handlers n (.dispatching 0 fname opts) with
    | none => rw [hm] at h; exact absurd h (by simp)
    | some p =>
      rw [hm] at h
      simp at h
      refine ⟨n + 1, ?_⟩
      unfold fileCacheResolve
      rw [mrun_to_resolveLoop handlers n 0 fname opts p hm]
      simp [h]

/-- Local filesystem state as the matchers observe it: `os.path.exists`
(`Path.exists`), `os.path.isfile`, `os.path.isdir`, and whole-second
modification times `int(Path(p).stat().st_mtime)` (the `int(...)`
truncation of `BaseFileMatcher.mtime` is where the float leaves the
model, so times are `Int`). -/
structure FS where
  pathExists : String → Bool
  isfile : String → Bool
  isdir : String → Bool
  mtime : String → Int

/-- `Path(p).mkdir()`: afterwards `p` exists and is a directory. -/
def mkdirFS (p : String) (fs : FS) : FS :=
  { fs with
    pathExists := fun q => if q = p then true else fs.pathExists q
    isdir := fun q => if q = p then true else fs.isdir q }

/-- Split a character list at `/` separators. -/
def segsOf : List Char → List (List Char)
  | [] => [[]]
  | c :: cs =>
    let r := segsOf cs
    if c = '/' then [] :: r
    else
      match r with
      | [] => [[c]]
      | s :: rest => (c :: s) :: rest

/-- `Path(fname).name`: the final path component (posix semantics,
ignoring empty segments from repeated or trailing separators). -/
def basename (s : String) : String :=
  ⟨((((segsOf s.data).filter (fun t => t ≠ [])).getLast?).getD [])⟩

/-- `BaseFileMatcher.is_cache_eligible` (base_file_matcher.py lines
36-40): the cached file is up-to-date iff its whole-second mtime is
strictly greater than the source's. -/
def is_cache_eligible (fs : FS) (cached_file fname : String) : Bool :=
  decide (fs.mtime fname < fs.mtime cached_file)

/-- `BaseFileMatcher.get_or_update_cache` (base_file_matcher.py lines
60-77), parametrised over the pieces concrete matchers override:
`cacheFilename` (`cache_filename`, which `GitFileMatcher` makes both
filesystem-dependent and fallible), `upd` (`update_cache`, an effect on
the filesystem that may raise), and `eligible` (`is_cache_eligible`).
`cache_path` is inlined as `cache_dir / cache_filename(fname)`; its
`None` case coincides with the `not self.cache_dir` guard already
matched. -/
def get_or_update_cache (cacheDir : Option String)
    (cacheFilename : String → FS → Except String String)
    (upd : String → String → Opts → FS → Except String FS)
    (eligible : FS → String → String → Bool)
    (fname : String) (opts : Opts) (fs : FS) :
    Except String (Option String × FS) :=
  match cacheDir with
  | none => .ok (none, fs)
  | some cd =>
    match cacheFilename fname fs with
    | .error e => .error e
    | .ok name =>
      let cached := cd ++ "/" ++ name
      let fs1 := if fs.pathExists cd then fs else mkdirFS cd fs
      let next : Except String FS :=
        if !(fs1.pathExists cached) then upd fname cached opts fs1
        else if !(eligible fs1 cached fname) then upd fname cached opts fs1
        else .ok fs1
      match next with
      | .error e => .error e
      | .ok fs2 => .ok (if fs2.pathExists cached then some cached else none, fs2)

/-- C2.  `get_or_update_cache` behaviour.  With no cache directory it
returns nil and produces nothing (filesystem untouched).  With a
configured cache directory `cd` and a pure name rule `nameF` it first
ensures `cd` exists, then invokes the handler's produce-artifact step
`upd` if and only if the artifact `cd ++ "/" ++ nameF fname` does not
exist or is stale (artifact mtime ≤ source mtime, whole seconds), and
returns the artifact path exactly when the artifact exists afterwards,
else nil; when the artifact exists and is fresh it returns the artifact
path without invoking `upd`. -/
theorem get_or_update_cache_spec
    (cd : String) (nameF : String → String)
    (upd : String → String → Opts → FS → Except String FS)
    (fname : String) (opts : Opts) (fs : FS) :
    (∀ cf el, get_or_update_cache none cf upd el fname opts fs = .ok (none, fs)) ∧
    ((if fs.pathExists cd then fs else mkdirFS cd fs).pathExists cd = true) ∧
    (get_or_update_cache (some cd) (fun f _ => .ok (nameF f)) upd is_cache_eligible
        fname opts fs =
      (let cached := cd ++ "/" ++ nameF fname
       let fs1 := if fs.pathExists cd then fs else mkdirFS cd fs
       if fs1.pathExists cached = false ∨ fs1.mtime cached ≤ fs1.mtime fname then
         Except.map
           (fun fs2 => (if fs2.pathExists cached then some cached else none, fs2))
           (upd fname cached opts fs1)
       else .ok (some cached, fs1))) := by
  refine ⟨fun cf el => rfl, ?_, ?_⟩
  · by_cases hcd : fs.pathExists cd = true
    · simp [hcd]
    · simp [hcd, mkdirFS]
  · unfold get_or_update_cache
    dsimp only
    set fs1 := if fs.pathExists cd then fs else mkdirFS cd fs with hfs1
    set cached := cd ++ "/" ++ nameF fname with hcached
    by_cases hex : fs1.pathExists cached = true
    · by_cases hel : is_cache_eligible fs1 cached fname = true
      · have hcond : ¬ (fs1.pathExists cached = false ∨ fs1.mtime cached ≤ fs1.mtime fname) := by
          push_neg
          constructor
          · simp [hex]
          · unfold is_cache_eligible at hel
            simp at hel
            omega
        have hfresh : ¬ (fs1.mtime cached ≤ fs1.mtime fname) := by
          unfold is_cache_eligible at hel
          simp at hel
          omega
        simp only [hex, hel, if_neg hcond]
        simp [hex, if_neg hfresh]
      · have hstale : fs1.mtime cached ≤ fs1.mtime fname := by
          unfold is_cache_eligible at hel
          simp at hel
          omega
        have hcond : fs1.pathExists cached = false ∨ fs1.mtime cached ≤ fs1.mtime fname :=
          Or.inr hstale
        simp only [hex, hel, if_pos hcond]
        cases hupd : upd fname cached opts fs1 with
        | error e => simp [hupd, Except.map, if_pos hstale]
        | ok fs2 => simp [hupd, Except.map, if_pos hstale]
    · have hexf : fs1.pathExists cached = false := by
        cases h : fs1.pathExists cached
        · rfl
        · exact absurd h hex
      have hcond : fs1.pathExists cached = false ∨ fs1.mtime cached ≤ fs1.mtime fname :=
        Or.inl hexf
      simp only [hexf, if_pos hcond]
      cases hupd : upd fname cached opts fs1 with
      | error e => simp [hupd, Except.map]
      | ok fs2 => simp [hupd, Except.map]

/-- `str(fname).replace("\\", "/")`: normalize path separators. -/
def normSep (l : List Char) : List Char :=
  l.map (fun c => if c = '\\' then '/' else c)

/-- Separator normalization at the `String` boundary. -/
def strNorm (s : String) : String := ⟨normSep s.data⟩

/-- Leftmost occurrence index of `pat` in a character list
(`str.find`, with `none` for Python's `-1`). -/
def firstOcc (pat : List Char) : List Char → Option Nat
  | [] => if pat.isEmpty then some 0 else none
  | c :: cs =>
    if pat.isPrefixOf (c :: cs) then some 0
    else (firstOcc pat cs).map (fun n => n + 1)

/-- The extension scan of `BaseFileMatcher.split_container`
(base_file_matcher.py lines 87-96) over the normalized character list:
for each `ext`, an exact `.ext` suffix returns the whole name with no
inner path; otherwise the first `.ext/` occurrence splits the name at
the slash; if no extension matches, both components are nil. -/
def splitContainerCore (fname : List Char) :
    List (List Char) → Option (List Char) × Option (List Char)
  | [] => (none, none)
  | ext :: rest =>
    if ('.' :: ext).isSuffixOf fname then (some fname, none)
    else
      match firstOcc ('.' :: (ext ++ ['/'])) fname with
      | some pos =>
        (some (fname.take (pos + ext.length + 1)),
         some (fname.drop (pos + ext.length + 2)))
      | none => splitContainerCore fname rest

/-- `BaseFileMatcher.split_container` (base_file_matcher.py lines
83-96): normalize separators, then scan the extensions. -/
def split_container (fname : String) (extensions : List String) :
    Option String × Option String :=
  let r := splitContainerCore (normSep fname.data) (extensions.map String.data)
  (r.1.map (fun l => (⟨l⟩ : String)), r.2.map (fun l => (⟨l⟩ : String)))

/-- `str.endswith` at the `String` boundary. -/
def strEndsWith (s suf : String) : Bool :=
  suf.data.isSuffixOf s.data

theorem normSep_idem (l : List Char) : normSep (normSep l) = normSep l := by
  unfold normSep
  rw [List.map_map]
  apply List.map_congr_left
  intro c _
  by_cases hc : c = '\\'
  · simp [hc]
  · simp [hc]

/-- C3.  `split_container` normalizes path separators before matching
(a reference and its separator-normalized form split identically), and
on extensions `["tar", "tar.gz"]` the three specified examples hold:
`"a/b.tar.gz/c/d.txt"` splits into container `"a/b.tar.gz"` and inner
path `"c/d.txt"`; `"a/b.tar.gz"` yields the container and a nil inner
path; `"a/b.txt"` yields `(nil, nil)`. -/
theorem split_container_spec :
    (∀ (s : String) (exts : List String),
      split_container s exts = split_container (strNorm s) exts) ∧
    split_container "a/b.tar.gz/c/d.txt" ["tar", "tar.gz"] =
      (some "a/b.tar.gz", some "c/d.txt") ∧
    split_container "a/b.tar.gz" ["tar", "tar.gz"] = (some "a/b.tar.gz", none) ∧
    split_container "a/b.txt" ["tar", "tar.gz"] = (none, none) := by
  refine ⟨?_, by decide, by decide, by decide⟩
  intro s exts
  unfold split_container strNorm
  rw [show (⟨normSep s.data⟩ : String).data = normSep s.data from rfl]
  rw [normSep_idem]

theorem isPrefixOf_exists_append :
    ∀ (p l : List Char), p.isPrefixOf l = true → ∃ t, l = p ++ t := by
  intro p
  induction p with
  | nil => intro l _; exact ⟨l, rfl⟩
  | cons a as ih =>
    intro l h
    cases l with
    | nil => exact absurd h (by simp [List.isPrefixOf])
    | cons b bs =>
      rw [List.isPrefixOf] at h
      rw [Bool.and_eq_true] at h
      obtain ⟨hab, htail⟩ := h
      have hab2 : a = b := eq_of_beq hab
      obtain ⟨t, ht⟩ := ih bs htail
      exact ⟨t, by rw [hab2, ht]; rfl⟩

theorem isPrefixOf_append_self (a b : List Char) :
    a.isPrefixOf (a ++ b) = true := by
  induction a with
  | nil => simp [List.isPrefixOf]
  | cons x xs ih => simp [List.isPrefixOf, ih]

theorem isSuffixOf_append_self (p s : List Char) :
    s.isSuffixOf (p ++ s) = true := by
  unfold List.isSuffixOf
  rw [List.reverse_append]
  exact isPrefixOf_append_self s.reverse p.reverse

theorem firstOcc_drop (pat : List Char) :
    ∀ (l : List Char) (n : Nat), firstOcc pat l = some n →
      pat.isPrefixOf (l.drop n) = true := by
  intro l
  induction l with
  | nil =>
    intro n h
    rw [firstOcc] at h
    by_cases hp : pat.isEmpty = true
    · rw [if_pos hp] at h
      simp at h
      rw [← h]
      cases pat with
      | nil => simp [List.isPrefixOf]
      | cons c cs => simp [List.isEmpty] at hp
    · rw [if_neg hp] at h
      exact absurd h (by simp)
  | cons c cs ih =>
    intro n h
    rw [firstOcc] at h
    by_cases hp : pat.isPrefixOf (c :: cs) = true
    · rw [if_pos hp] at h
      simp at h
      rw [← h]
      exact hp
    · rw [if_neg hp] at h
      cases hrec : firstOcc pat cs with
      | none => rw [hrec] at h; exact absurd h (by simp)
      | some m =>
        rw [hrec] at h
        simp at h
        rw [← h]
        exact ih m hrec

/-- Shape of one `splitContainerCore` result, by induction over the
extension list. -/
theorem splitContainerCore_spec :
    ∀ (exts : List (List Char)) (fname : List Char),
      splitContainerCore fname exts = (none, none) ∨
      (∃ ext, ext ∈ exts ∧ splitContainerCore fname exts = (some fname, none) ∧
        ('.' :: ext).isSuffixOf fname = true) ∨
      (∃ ext, ext ∈ exts ∧ ∃ c i, splitContainerCore fname exts = (some c, some i) ∧
        ('.' :: ext).isSuffixOf c = true ∧ c ++ '/' :: i = fname) := by
  intro exts
  induction exts with
  | nil => intro fname; left; rfl
  | cons ext rest ih =>
    intro fname
    rw [splitContainerCore]
    by_cases hsuf : ('.' :: ext).isSuffixOf fname = true
    · right; left
      exact ⟨ext, by simp, by rw [if_pos hsuf], hsuf⟩
    · rw [if_neg hsuf]
      cases hocc : firstOcc ('.' :: (ext ++ ['/'])) fname with
      | some pos =>
        right; right
        refine ⟨ext, by simp, fname.take (pos + ext.length + 1),
          fname.drop (pos + ext.length + 2), rfl, ?_, ?_⟩
        · have hpre := firstOcc_drop ('.' :: (ext ++ ['/'])) fname pos hocc
          obtain ⟨t, ht⟩ := isPrefixOf_exists_append _ _ hpre
          have htake : fname.take (pos + ext.length + 1) =
              fname.take pos ++ ('.' :: ext) := by
            have h1 : pos + ext.length + 1 = pos + (ext.length + 1) := by omega
            rw [h1, List.take_add, ht]
            congr 1
            have h2 : ('.' :: (ext ++ ['/'])) ++ t = ('.' :: ext) ++ ('/' :: t) := by
              simp
            rw [h2]
            have h3 : ext.length + 1 = ('.' :: ext).length := by simp
            rw [h3, List.take_left]
          rw [htake]
          exact isSuffixOf_append_self _ _
        · have hpre := firstOcc_drop ('.' :: (ext ++ ['/'])) fname pos hocc
          obtain ⟨t, ht⟩ := isPrefixOf_exists_append _ _ hpre
          have hdrop : fname.drop (pos + ext.length + 2) = t := by
            have h1 : pos + ext.length + 2 = pos + (ext.length + 2) := by omega
            rw [h1, ← List.drop_drop, ht]
            have h3 : ext.length + 2 = ('.' :: (ext ++ ['/'])).length := by simp
            rw [h3, List.drop_left]
          have htake : fname.take (pos + ext.length + 1) =
              fname.take pos ++ ('.' :: ext) := by
            have h1 : pos + ext.length + 1 = pos + (ext.length + 1) := by omega
            rw [h1, List.take_add, ht]
            congr 1
            have h2 : ('.' :: (ext ++ ['/'])) ++ t = ('.' :: ext) ++ ('/' :: t) := by
              simp
            rw [h2]
            have h3 : ext.length + 1 = ('.' :: ext).length := by simp
            rw [h3, List.take_left]
          rw [hdrop, htake]
          have hfull : fname = fname.take pos ++ fname.drop pos :=
            (List.take_append_drop pos fname).symm
          rw [ht] at hfull
          conv_rhs => rw [hfull]
          simp
      | none =>
        rcases ih fname with h1 | h2 | h3
        · left; exact h1
        · right; left
          obtain ⟨e, he, hr, hs⟩ := h2
          exact ⟨e, by simp [he], hr, hs⟩
        · right; right
          obtain ⟨e, he, c, i, hr, hs, hrec⟩ := h3
          exact ⟨e, by simp [he], c, i, hr, hs, hrec⟩

/-- C9.  Reconstruction invariant of `split_container`: writing `n` for
the input with every backslash replaced by a forward slash, the result
is `(nil, nil)`, or the whole normalized name `n` as container with a
nil inner path and `n` ends in `"." ++ ext` for some listed extension,
or a container/inner pair with the container ending in `"." ++ ext` and
`container ++ "/" ++ inner = n`. -/
theorem split_container_reconstruction (s : String) (exts : List String) :
    split_container s exts = (none, none) ∨
    (∃ ext, ext ∈ exts ∧ split_container s exts = (some (strNorm s), none) ∧
      strEndsWith (strNorm s) ("." ++ ext) = true) ∨
    (∃ ext, ext ∈ exts ∧ ∃ c i, split_container s exts = (some c, some i) ∧
      strEndsWith c ("." ++ ext) = true ∧ c ++ "/" ++ i = strNorm s) := by
  unfold split_container
  rcases splitContainerCore_spec (exts.map String.data) (normSep s.data)
    with h1 | h2 | h3
  · left
    rw [h1]
    rfl
  · right; left
    obtain ⟨e, he, hr, hs⟩ := h2
    simp only [List.mem_map] at he
    obtain ⟨ext, hext, hed⟩ := he
    refine ⟨ext, hext, ?_, ?_⟩
    · rw [hr]
      rfl
    · unfold strEndsWith strNorm
      have : ("." ++ ext).data = '.' :: ext.data := by
        rw [String.data_append]
        rfl
      rw [this, show (⟨normSep s.data⟩ : String).data = normSep s.data from rfl]
      rw [hed]
      exact hs
  · right; right
    obtain ⟨e, he, c, i, hr, hs, hrec⟩ := h3
    simp only [List.mem_map] at he
    obtain ⟨ext, hext, hed⟩ := he
    refine ⟨ext, hext, ⟨c⟩, ⟨i⟩, ?_, ?_, ?_⟩
    · rw [hr]
      rfl
    · unfold strEndsWith
      have : ("." ++ ext).data = '.' :: ext.data := by
        rw [String.data_append]
        rfl
      rw [this, show (⟨c⟩ : String).data = c from rfl]
      rw [hed]
      exact hs
    · unfold strNorm
      apply String.ext
      show ((⟨c⟩ : String) ++ "/" ++ ⟨i⟩).data = normSep s.data
      rw [String.data_append, String.data_append]
      show c ++ '/' :: [] ++ i = normSep s.data
      rw [← hrec]
      simp

/-- `FileCache.register` (file_cache.py lines 75-80):
`if insert <= 0: self.repo.append(matcher) else: self.repo.insert(insert, matcher)`.
Only positive indices reach `list.insert`, where Python clamps an index
past the end to an append; `take/drop` at the index models that
exactly. -/
def register {α : Type} (repo : List α) (matcher : α) (ins : Int) : List α :=
  if ins ≤ 0 then repo ++ [matcher]
  else repo.take ins.toNat ++ [matcher] ++ repo.drop ins.toNat

/-- C4 counterexample.  The claim predicts that `register(handler,
insert=0)` places the handler at position 0 of the list; on a registry
already holding one handler, the code appends instead: the element at
position 0 is the old handler, not the new one. -/
theorem register_insert_zero_appends :
    register [(0 : Nat)] 1 0 = [0, 1] ∧ (register [(0 : Nat)] 1 0)[0]? ≠ some 1 := by
  decide

/-- C4 amended.  `register` with the default `insert = -1` (or any
`insert ≤ 0`, including 0) appends the handler at the end; for
`1 ≤ k ≤ length` it places the handler at position `k`: the element at
`k` is the new handler, positions below `k` are unchanged, and the
previous elements from `k` on are shifted up by one.  Position 0 —
ahead of all previously registered handlers — is not reachable. -/
theorem register_amended {α : Type} (l : List α) (m : α) (k : Nat)
    (h1 : 1 ≤ k) (h2 : k ≤ l.length) :
    register l m (-1) = l ++ [m] ∧
    register l m 0 = l ++ [m] ∧
    (register l m (Int.ofNat k))[k]? = some m ∧
    (∀ j, j < k → (register l m (Int.ofNat k))[j]? = l[j]?) ∧
    (∀ j, k ≤ j → (register l m (Int.ofNat k))[j + 1]? = l[j]?) := by
  have hpos : ¬ ((Int.ofNat k : Int) ≤ 0) := by
    simp only [Int.ofNat_eq_coe]
    omega
  have htn : (Int.ofNat k).toNat = k := rfl
  have hlen : (l.take k).length = k := by
    rw [List.length_take]
    omega
  refine ⟨by unfold register; rw [if_pos (by omega)],
    by unfold register; rw [if_pos (by omega)], ?_, ?_, ?_⟩
  · unfold register
    rw [if_neg hpos, htn, List.append_assoc,
      List.getElem?_append_right (by omega), hlen]
    simp
  · intro j hj
    unfold register
    rw [if_neg hpos, htn, List.append_assoc,
      List.getElem?_append_left (by omega)]
    exact List.getElem?_take_of_lt hj
  · intro j hj
    unfold register
    rw [if_neg hpos, htn, List.append_assoc,
      List.getElem?_append_right (by omega), hlen]
    have hj1 : j + 1 - k = (j - k) + 1 := by omega
    rw [hj1]
    rw [show ([m] ++ l.drop k) = m :: l.drop k from rfl]
    rw [List.getElem?_cons_succ]
    rw [List.getElem?_drop]
    congr 1
    omega

/-- C4 witness: the amended statement evaluated on a two-handler
registry at insert position 1. -/
theorem register_amended_witness :
    register [10, 20] (30 : Nat) (-1) = [10, 20, 30] ∧
    register [10, 20] (30 : Nat) 0 = [10, 20, 30] ∧
    (register [10, 20] (30 : Nat) (Int.ofNat 1))[1]? = some 30 ∧
    (register [10, 20] (30 : Nat) (Int.ofNat 1))[0]? = some 10 ∧
    (register [10, 20] (30 : Nat) (Int.ofNat 1))[2]? = some 20 := by
  have h := register_amended [10, 20] (30 : Nat) 1 (by decide) (by decide)
  exact ⟨h.1, h.2.1, h.2.2.1, h.2.2.2.1 0 (by decide), h.2.2.2.2 1 (by decide)⟩

/-- Character-level `str.startswith`, which also serves as the
path-prefix test. -/
def strStartsWith (s pre : String) : Bool :=
  pre.data.isPrefixOf s.data

/-- `shutil.rmtree(p)`: removes `p` and everything below it. -/
def rmtreeFS (p : String) (fs : FS) : FS :=
  { pathExists := fun q => if q = p || strStartsWith q (p ++ "/") then false else fs.pathExists q
    isfile := fun q => if q = p || strStartsWith q (p ++ "/") then false else fs.isfile q
    isdir := fun q => if q = p || strStartsWith q (p ++ "/") then false else fs.isdir q
    mtime := fs.mtime }

/-- `TarFileMatcher.update_cache` (file_cache/tar_matcher.py lines
23-32): wipe the output directory if it exists, recreate it, then
extract.  The extraction (`extractall` over `tarfile`/`zipfile`) is an
external collaborator, abstracted as `extract`. -/
def tarUpdate (extract : String → String → Opts → FS → Except String FS)
    (fname cached_file : String) (opts : Opts) (fs : FS) : Except String FS :=
  let fs1 := if fs.isdir cached_file then rmtreeFS cached_file fs else fs
  let fs2 := mkdirFS cached_file fs1
  extract fname cached_file opts fs2

/-- `pathlib` `/` join (posix, nonempty operands): an absolute right
operand discards the left operand entirely. -/
def pathJoin (a b : String) : String :=
  if strStartsWith b "/" then b else a ++ "/" ++ b

/-- Whether `p` equals `dir` or lies strictly below it. -/
def underS (dir p : String) : Bool :=
  p = dir || strStartsWith p (dir ++ "/")

/-- The inner-path adjustment of the legacy `TarFileMatcher.open`
(file_matcher/tar_matcher.py lines 56-58): when the container file
comes from the option bag, a leading path separator is stripped from
the reference before joining. -/
def legacyStripLeading (fp : String) : String :=
  if strStartsWith fp "/" || strStartsWith fp "\\" then ⟨fp.data.drop 1⟩ else fp

/-- `TarFileMatcher.resolve` (file_cache/tar_matcher.py lines 47-67),
parametrised like the class: `extKey` is `self.extension[0]` (the
container-file option key), `exts` is `self.extension`, `cacheDir` the
handler's cache directory and `upd` its `update_cache` effect.  The
popped container-file option is truthy only when non-empty (Python
`if container_file:`); an empty or absent option falls back to
`split_container`.  The tar-family `cache_filename` is
`Path(fname).name` and freshness is the base `is_cache_eligible`. -/
def tarResolve (cacheDir : Option String)
    (upd : String → String → Opts → FS → Except String FS)
    (extKey : String) (exts : List String)
    (fname : String) (opts : Opts) (fs : FS) :
    Except String (Option String × Opts × FS) :=
  let opts1 := (popOpt extKey opts).2
  let cf : Option String × Option String :=
    match (popOpt extKey opts).1 with
    | some c => if c ≠ "" then (some c, some fname) else split_container fname exts
    | none => split_container fname exts
  match cf.1 with
  | none => .ok (none, opts1, fs)
  | some container =>
    if !(fs.isfile container) then .ok (none, opts1, fs)
    else
      match get_or_update_cache cacheDir (fun f _ => .ok (basename f)) upd
          is_cache_eligible container opts1 fs with
      | .error e => .error e
      | .ok (none, fs2) => .ok (none, opts1, fs2)
      | .ok (some file, fs2) =>
        match cf.2 with
        | none => .ok (some file, opts1, fs2)
        | some fp => .ok (some (pathJoin file fp), opts1, fs2)

/-- A minimal filesystem with exactly one entry, used to evaluate the
matchers on concrete inputs. -/
def fsWith (file : String) : FS :=
  { pathExists := fun q => q = file
    isfile := fun q => q = file
    isdir := fun _ => false
    mtime := fun _ => 0 }

/-- A produce-artifact step that just materializes the cache path, used
to evaluate the matchers on concrete inputs. -/
def updMkdir : String → String → Opts → FS → Except String FS :=
  fun _ cached _ fs => .ok (mkdirFS cached fs)

/-- C5.  Evaluating the archive handler's `resolve` (shared by the
tar-family and, through subclassing, the zip matcher whose
`open_uncached` pops the `pwd` password from its own local keyword
dict) on a successful archive resolution with a password in the option
bag: the resolution succeeds, yet the option bag it returns still
contains the `pwd` key — only the container-file key is consumed, so
the password is forwarded to subsequent handlers in the chain. -/
theorem tar_resolve_pwd_not_consumed :
    (tarResolve (some "/c/zip") updMkdir "zip" ["zip"] "/d/a.zip"
        [("pwd", "test")] (fsWith "/d/a.zip")).toOption.map
      (fun t => (t.1, containsKey "pwd" t.2.1)) =
    some (some "/c/zip/a.zip", true) := by
  decide

/-- C6.  When the container file determined by the archive handler —
whether taken from the (non-empty) container-file option or recovered
by `split_container` from the reference — is not a file on the local
filesystem, `resolve` returns nil ("not applicable") together with the
option bag (the container key popped), does not raise (`.ok`, never
`.error`), and leaves the filesystem untouched, so the chain can try
later handlers. -/
theorem tar_resolve_missing_container (cacheDir : Option String)
    (upd : String → String → Opts → FS → Except String FS)
    (extKey : String) (exts : List String) (fname : String)
    (opts : Opts) (fs : FS) :
    (∀ c, lookupOpt extKey opts = some c → c ≠ "" → fs.isfile c = false →
      tarResolve cacheDir upd extKey exts fname opts fs =
        .ok (none, (popOpt extKey opts).2, fs)) ∧
    (∀ c i, (lookupOpt extKey opts = none ∨ lookupOpt extKey opts = some "") →
      split_container fname exts = (some c, i) → fs.isfile c = false →
      tarResolve cacheDir upd extKey exts fname opts fs =
        .ok (none, (popOpt extKey opts).2, fs)) := by
  constructor
  · intro c hc hcne hmiss
    unfold tarResolve
    dsimp only [popOpt]
    rw [hc]
    dsimp only
    rw [if_pos hcne]
    dsimp only
    rw [hmiss]
    rfl
  · intro c i hl hsplit hmiss
    unfold tarResolve
    dsimp only [popOpt]
    rcases hl with hl | hl
    · rw [hl]
      dsimp only
      rw [hsplit]
      dsimp only
      rw [hmiss]
      rfl
    · rw [hl]
      dsimp only
      rw [if_neg (by simp)]
      rw [hsplit]
      dsimp only
      rw [hmiss]
      rfl

/-- C6 witness: both branches evaluated concretely — an explicit
container-file option naming a missing archive, and a container
reference whose split-out container file is missing. -/
theorem tar_resolve_missing_container_witness :
    tarResolve (some "/cache/tar") updMkdir "tar" ["tar", "tar.gz"] "x.txt"
      [("tar", "/d/missing.tar")] (fsWith "/other") =
      .ok (none, [], fsWith "/other") ∧
    tarResolve (some "/cache/tar") updMkdir "tar" ["tar", "tar.gz"]
      "/d/missing.tar.gz/in.txt" [] (fsWith "/other") =
      .ok (none, [], fsWith "/other") := by
  have h1 := (tar_resolve_missing_container (some "/cache/tar") updMkdir "tar"
    ["tar", "tar.gz"] "x.txt" [("tar", "/d/missing.tar")] (fsWith "/other")).1
    "/d/missing.tar" (by decide) (by decide) (by decide)
  have h2 := (tar_resolve_missing_container (some "/cache/tar") updMkdir "tar"
    ["tar", "tar.gz"] "/d/missing.tar.gz/in.txt" [] (fsWith "/other")).2
    "/d/missing.tar.gz" (some "in.txt") (Or.inl (by decide)) (by decide) (by decide)
  exact ⟨h1, h2⟩

/-- C10.  With an explicit container-file option and an absolute inner
path as the reference, `TarFileMatcher.resolve` returns that absolute
path itself: joining an absolute inner path onto the extracted-archive
cache directory `D` discards the prefix (`pathJoin D fname = fname`),
so the returned artifact path lies outside the handler's cache
subdirectory whenever the absolute path does.  The legacy `open`, by
contrast, strips one leading separator first, and (when what remains is
relative) its joined path stays under `D`. -/
theorem tar_resolve_absolute_inner (cd : String)
    (upd : String → String → Opts → FS → Except String FS)
    (extKey : String) (exts : List String)
    (fname container D : String) (opts : Opts) (fs fs2 : FS)
    (hc : lookupOpt extKey opts = some container)
    (hcne : container ≠ "")
    (hisf : fs.isfile container = true)
    (hg : get_or_update_cache (some cd) (fun f _ => .ok (basename f)) upd
        is_cache_eligible container (popOpt extKey opts).2 fs = .ok (some D, fs2))
    (habs : strStartsWith fname "/" = true) :
    tarResolve (some cd) upd extKey exts fname opts fs =
      .ok (some fname, (popOpt extKey opts).2, fs2) ∧
    pathJoin D fname = fname ∧
    (strStartsWith (legacyStripLeading fname) "/" = false →
      underS D (pathJoin D (legacyStripLeading fname)) = true) := by
  have hjoin : pathJoin D fname = fname := by
    unfold pathJoin
    rw [habs]
    rfl
  refine ⟨?_, hjoin, ?_⟩
  · unfold tarResolve
    dsimp only [popOpt]
    rw [hc]
    dsimp only
    rw [if_pos hcne]
    dsimp only
    rw [hisf]
    show (match get_or_update_cache (some cd) (fun f _ => Except.ok (basename f)) upd
        is_cache_eligible container (popOpt extKey opts).2 fs with
      | Except.error e => (Except.error e : Except String (Option String × Opts × FS))
      | Except.ok (none, fs2) => Except.ok (none, (popOpt extKey opts).2, fs2)
      | Except.ok (some file, fs2) =>
        Except.ok (some (pathJoin file fname), (popOpt extKey opts).2, fs2)) =
      Except.ok (some fname, (popOpt extKey opts).2, fs2)
    rw [hg]
    dsimp only
    rw [hjoin]
  · intro hrel
    unfold pathJoin
    rw [hrel]
    show underS D (D ++ "/" ++ legacyStripLeading fname) = true
    unfold underS strStartsWith
    rw [show ((D ++ "/" ++ legacyStripLeading fname) : String).data =
      (D ++ "/").data ++ (legacyStripLeading fname).data from by
        rw [String.data_append]]
    rw [isPrefixOf_append_self]
    simp

/-- C10 witness: concrete evaluation with container option
`tar = /d/a.tar` and absolute inner reference `/abs/inner.txt`. -/
theorem tar_resolve_absolute_inner_witness :
    tarResolve (some "/cache/tar") updMkdir "tar" ["tar", "tar.gz"] "/abs/inner.txt"
        [("tar", "/d/a.tar")] (fsWith "/d/a.tar") =
      .ok (some "/abs/inner.txt", [],
        mkdirFS "/cache/tar/a.tar" (mkdirFS "/cache/tar" (fsWith "/d/a.tar"))) ∧
    pathJoin "/cache/tar/a.tar" "/abs/inner.txt" = "/abs/inner.txt" ∧
    underS "/cache/tar/a.tar"
      (pathJoin "/cache/tar/a.tar" (legacyStripLeading "/abs/inner.txt")) = true := by
  have h := tar_resolve_absolute_inner "/cache/tar" updMkdir "tar" ["tar", "tar.gz"]
    "/abs/inner.txt" "/d/a.tar" "/cache/tar/a.tar" [("tar", "/d/a.tar")]
    (fsWith "/d/a.tar")
    (mkdirFS "/cache/tar/a.tar" (mkdirFS "/cache/tar" (fsWith "/d/a.tar")))
    (by decide) (by decide) (by decide) rfl (by decide)
  exact ⟨h.1, h.2.1, h.2.2 (by decide)⟩

/-- `urlparse(fname).path`, modelled for the URL shapes the git matcher
receives (no query, fragment or params): with a `scheme://host` head
the path starts at the first `/` after the host (empty if none);
otherwise the whole string is the path. -/
def urlPath (s : String) : String :=
  match firstOcc [':', '/', '/'] s.data with
  | none => s
  | some n => ⟨(s.data.drop (n + 3)).dropWhile (fun c => c ≠ '/')⟩

/-- `path.split(";")[0]`. -/
def takeBeforeSemicolon (s : String) : String :=
  ⟨s.data.takeWhile (fun c => c ≠ ';')⟩

/-- The third `/`-separated segment of the (de-parametrised) URL path:
`path = url.path.split(";")[0].split("/"); path[2] if len(path) > 2 else None`. -/
def gitProjectSeg (v : String) : Option (List Char) :=
  (segsOf (takeBeforeSemicolon (urlPath v)).data).get? 2

/-- `GitFileMatcher.cache_filename` (git_matcher.py lines 19-34):
normalize separators; an existing local directory caches under its
basename; otherwise the project name is extracted from the URL path and
a missing or empty project segment raises
`AttributeError(f"Invalid github url. Missing 'project name' in {fname}")`. -/
def gitCacheFilename (fname0 : String) (fs : FS) : Except String String :=
  if fs.isdir ⟨normSep fname0.data⟩ then .ok (basename ⟨normSep fname0.data⟩)
  else
    match gitProjectSeg ⟨normSep fname0.data⟩ with
    | some proj =>
      if proj ≠ [] then .ok ⟨proj⟩
      else .error ("Invalid github url. Missing 'project name' in " ++
        (⟨normSep fname0.data⟩ : String))
    | none => .error ("Invalid github url. Missing 'project name' in " ++
        (⟨normSep fname0.data⟩ : String))

/-- `GitFileMatcher.is_cache_eligible` (git_matcher.py lines 69-70):
always stale, forcing the explicit pull policy. -/
def gitEligible : FS → String → String → Bool := fun _ _ _ => false

/-- `GitFileMatcher.resolve` (git_matcher.py lines 75-86): pop the
`git` option (consumed even when declining); a missing or falsy (empty)
value declines; otherwise run the shared `get_or_update_cache` on the
repository reference (clone/checkout/pull effects abstracted in `upd`)
and join the working directory with the caller's reference. -/
def gitResolve (cacheDir : Option String)
    (upd : String → String → Opts → FS → Except String FS)
    (fname : String) (opts : Opts) (fs : FS) :
    Except String (Option String × Opts × FS) :=
  let opts1 := (popOpt "git" opts).2
  match (popOpt "git" opts).1 with
  | none => .ok (none, opts1, fs)
  | some g =>
    if g = "" then .ok (none, opts1, fs)
    else
      match get_or_update_cache cacheDir gitCacheFilename upd gitEligible g opts1 fs with
      | .error e => .error e
      | .ok (none, fs2) => .ok (none, opts1, fs2)
      | .ok (some file, fs2) => .ok (some (pathJoin file fname), opts1, fs2)

/-- C7 counterexample.  A `git` option is supplied whose value is
neither an existing directory nor a URL with a project segment, yet on
a handler with no cache directory `resolve` returns nil ("not
applicable") without raising: `get_or_update_cache` bails out on the
missing cache directory before `cache_filename` can raise. -/
theorem git_resolve_no_cachedir_returns_nil :
    gitResolve none updMkdir ".gitignore"
      [("git", "https://github.com/user")] (fsWith "/other") =
    .ok (none, [], fsWith "/other") := by
  rfl

/-- C7 amended.  On a git handler with a configured cache directory,
whenever a non-empty `git` option is supplied whose (separator-
normalized) value is not an existing local directory and whose URL path
has no extractable project-name segment (no third `/`-segment, or an
empty one), `resolve` raises the descriptive
"Invalid github url. Missing 'project name'" error — it does not
return nil. -/
theorem git_resolve_malformed_raises (cd : String)
    (upd : String → String → Opts → FS → Except String FS)
    (fname : String) (opts : Opts) (fs : FS) (v : String)
    (hv : lookupOpt "git" opts = some v)
    (hvne : v ≠ "")
    (hdir : fs.isdir ⟨normSep v.data⟩ = false)
    (hproj : gitProjectSeg ⟨normSep v.data⟩ = none ∨
      gitProjectSeg ⟨normSep v.data⟩ = some []) :
    gitResolve (some cd) upd fname opts fs =
      .error ("Invalid github url. Missing 'project name' in " ++
        (⟨normSep v.data⟩ : String)) := by
  have hname : gitCacheFilename v fs =
      .error ("Invalid github url. Missing 'project name' in " ++
        (⟨normSep v.data⟩ : String)) := by
    unfold gitCacheFilename
    rw [hdir]
    rw [if_neg (by simp)]
    rcases hproj with hp | hp
    · rw [hp]
    · rw [hp]
      dsimp only
      rw [if_neg (by simp)]
  unfold gitResolve
  dsimp only [popOpt]
  rw [hv]
  dsimp only
  rw [if_neg hvne]
  unfold get_or_update_cache
  rw [hname]

/-- C7 witness: the amended statement evaluated on the project-less URL
`https://github.com/user` with cache directory `/cache/git`. -/
theorem git_resolve_malformed_raises_witness :
    gitResolve (some "/cache/git") updMkdir ".gitignore"
      [("git", "https://github.com/user")] (fsWith "/other") =
    .error ("Invalid github url. Missing 'project name' in " ++
      (⟨normSep "https://github.com/user".data⟩ : String)) := by
  exact git_resolve_malformed_raises "/cache/git" updMkdir ".gitignore"
    [("git", "https://github.com/user")] (fsWith "/other")
    "https://github.com/user" (by decide) (by decide) (by decide)
    (Or.inl (by decide))

/-- Paths as `/`-separated segment lists, for the cache-tree model. -/
abbrev SPath := List String

/-- A filesystem tree as the set of existing paths. -/
abbrev TreeFS := SPath → Bool

/-- `shutil.rmtree` on the tree model: removes the subtree root and
every path below it (the `on_rm_error` read-only retry is part of
removal, not of the model). -/
def rmtreeT (p : SPath) (fs : TreeFS) : TreeFS :=
  fun q => if p.isPrefixOf q then false else fs q

/-- `Path.mkdir` on the tree model. -/
def mkdirT (p : SPath) (fs : TreeFS) : TreeFS :=
  fun q => if q = p then true else fs q

/-- `FileCache.clear_cache` (file_cache.py lines 108-122): with a
truthy subdir remove that subtree only; otherwise (no subdir, or the
falsy empty string) remove the whole cache tree and recreate the empty
root.  A falsy cache dir does nothing. -/
def clear_cache (cacheDir : Option SPath) (subdir : Option String)
    (fs : TreeFS) : TreeFS :=
  match cacheDir with
  | none => fs
  | some cd =>
    match subdir with
    | some s =>
      if s ≠ "" then rmtreeT (cd ++ [s]) fs
      else mkdirT cd (rmtreeT cd fs)
    | none => mkdirT cd (rmtreeT cd fs)

theorem isPrefixOf_append_cons_ne :
    ∀ (cd : List String) (s t : String) (rest : List String), s ≠ t →
      (cd ++ [s]).isPrefixOf (cd ++ t :: rest) = false := by
  intro cd
  induction cd with
  | nil =>
    intro s t rest hne
    show ([s]).isPrefixOf (t :: rest) = false
    rw [List.isPrefixOf]
    simp [hne]
  | cons c cs ih =>
    intro s t rest hne
    show ((c :: (cs ++ [s])).isPrefixOf (c :: (cs ++ t :: rest))) = false
    rw [List.isPrefixOf]
    simp only [beq_self_eq_true, Bool.true_and]
    exact ih s t rest hne

theorem isPrefixOf_self_refl (l : List String) : l.isPrefixOf l = true := by
  induction l with
  | nil => rfl
  | cons c cs ih =>
    rw [List.isPrefixOf]
    simp [ih]

/-- C8.  `clear_cache` with a handler's (non-empty) subdirectory name
removes exactly that subtree — every path at or below
`cacheDir ++ [s]` is gone, every other path (in particular every path
under another handler's subdirectory `t ≠ s`) is untouched — while
`clear_cache` with no name removes the whole cache tree and recreates
the empty root: below the cache dir only the root itself remains, and
paths outside the cache dir are untouched. -/
theorem clear_cache_spec (cd : SPath) (s : String) (fs : TreeFS) (q : SPath)
    (hs : s ≠ "") :
    ((cd ++ [s]).isPrefixOf q = true →
      clear_cache (some cd) (some s) fs q = false) ∧
    ((cd ++ [s]).isPrefixOf q = false →
      clear_cache (some cd) (some s) fs q = fs q) ∧
    (∀ (t : String) (rest : List String), t ≠ s →
      clear_cache (some cd) (some s) fs (cd ++ t :: rest) =
        fs (cd ++ t :: rest)) ∧
    (cd.isPrefixOf q = true →
      clear_cache (some cd) none fs q = decide (q = cd)) ∧
    (cd.isPrefixOf q = false →
      clear_cache (some cd) none fs q = fs q) := by
  refine ⟨?_, ?_, ?_, ?_, ?_⟩
  · intro h
    simp only [clear_cache, if_pos hs, rmtreeT, h]
    rfl
  · intro h
    simp only [clear_cache, if_pos hs, rmtreeT, h]
    rfl
  · intro t rest hts
    have h := isPrefixOf_append_cons_ne cd s t rest (fun he => hts he.symm)
    simp only [clear_cache, if_pos hs, rmtreeT, h]
    rfl
  · intro h
    simp only [clear_cache, mkdirT, rmtreeT, h]
    by_cases hq : q = cd
    · simp [hq]
    · simp [hq]
  · intro h
    have hq : q ≠ cd := by
      intro he
      rw [he] at h
      rw [isPrefixOf_self_refl] at h
      exact absurd h (by simp)
    simp only [clear_cache, mkdirT, rmtreeT, h]
    simp [hq]

/-- C8 witness: a two-handler cache tree at root `["root"]`; clearing
subdir `"tar"` removes its artifact and keeps the `"gz"` artifact;
clearing everything leaves only the recreated root. -/
theorem clear_cache_spec_witness :
    clear_cache (some ["root"]) (some "tar") (fun _ => true) ["root", "tar", "a"] = false ∧
    clear_cache (some ["root"]) (some "tar") (fun _ => true) ["root", "gz", "b"] = true ∧
    clear_cache (some ["root"]) (some "tar") (fun _ => true) ["elsewhere"] = true ∧
    clear_cache (some ["root"]) none (fun _ => true) ["root", "gz", "b"] = false ∧
    clear_cache (some ["root"]) none (fun _ => true) ["root"] = true ∧
    clear_cache (some ["root"]) none (fun _ => true) ["elsewhere"] = true := by
  have h1 := clear_cache_spec ["root"] "tar" (fun _ => true) ["root", "tar", "a"]
    (by decide)
  have h2 := clear_cache_spec ["root"] "tar" (fun _ => true) ["root", "gz", "b"]
    (by decide)
  have h3 := clear_cache_spec ["root"] "tar" (fun _ => true) ["elsewhere"]
    (by decide)
  have h4 := clear_cache_spec ["root"] "tar" (fun _ => true) ["root"]
    (by decide)
  exact ⟨h1.1 (by decide), h2.2.2.1 "gz" ["b"] (by decide), h3.2.1 (by decide),
    (clear_cache_spec ["root"] "tar" (fun _ => true) ["root", "gz", "b"]
      (by decide)).2.2.2.1 (by decide),
    (clear_cache_spec ["root"] "tar" (fun _ => true) ["root"]
      (by decide)).2.2.2.1 (by decide),
    (clear_cache_spec ["root"] "tar" (fun _ => true) ["elsewhere"]
      (by decide)).2.2.2.2 (by decide)⟩
